import Mathlib

/-!
# Verification of the assemblies Learning Engine against its specification

This file gives a shallow embedding in Lean 4 of the parts of the
assemblies repository's Learning Engine that the verified properties
talk about:

* the cyclic iteration scheduler of
  src/learning/components/sequence.py (class LearningSequence:
  IterationConfiguration, __iter__, __next__, initialize_run,
  finalize_sequence, add_iteration and its verification helpers);
* the input encoding of src/learning/components/input.py
  (InputStimuli name generation) and the two Iteration.format
  implementations (src/learning/components/sequence_components/iteration.py
  and the inline class in src/learning/components/sequence.py);
* the model lifecycle and test loop of src/learning/learning_model.py
  (terminate, output_area, train/test/run guards, the @contextmanager
  _set_training_mode, and test_model's accuracy computation);
* the TestingSet / explicit Mask behaviour (implementation absent from
  the source snapshot; modelled from the spec and the shipped tests).

Python dicts are embedded as insertion-ordered association lists,
Python exceptions as Except values, and the mutable brain / sequence /
model state as explicit state records threaded through the functions.
-/

namespace Assemblies

/-! ## Sequence iteration scheduler

Embedding of LearningSequence.IterationConfiguration and
LearningSequence.__next__ from src/learning/components/sequence.py
(identical logic in src/learning/learning_sequence.py).  An Iteration
record only matters here through its consecutive_runs field, so the
scheduler is parametrised by the list of consecutive_runs values
(one per declared iteration, in insertion order); the element produced
by __next__ is identified by its index into the declared list. -/

/-- IterationConfiguration from sequence.py: the mutable cursor created
by initialize_run.  current_run starts at -1, hence an Int. -/
structure IterationConfiguration where
  current_cycle : Nat
  current_iter : Nat
  current_run : Int
  activated : Bool
  deriving Repr, DecidableEq

/-- The configuration created by LearningSequence.initialize_run:
cycle 0, iteration 0, run -1, activated False. -/
def initialConfiguration : IterationConfiguration :=
  { current_cycle := 0, current_iter := 0, current_run := -1, activated := false }

/-- LearningSequence.__next__ (sequence.py lines 79-100), for a finite
number_of_cycles.  cs lists the consecutive_runs of the declared
iterations in insertion order.  Returns the index of the Iteration
record produced together with the updated configuration, or none for
StopIteration. -/
def seqNext (cs : List Nat) (numberOfCycles : Nat) (cfg : IterationConfiguration) :
    Option (Nat × IterationConfiguration) :=
  let run : Int := cfg.current_run + 1
  if run ≥ (cs.getD cfg.current_iter 0 : Nat) then
    -- Moving to the next iteration
    let iter := cfg.current_iter + 1
    if iter ≥ cs.length then
      -- Moving to the next cycle
      let cycle := cfg.current_cycle + 1
      if cycle ≥ numberOfCycles then
        none  -- Number of cycles exceeded: StopIteration
      else
        some (0, { current_cycle := cycle, current_iter := 0, current_run := 0,
                   activated := true })
    else
      some (iter, { current_cycle := cfg.current_cycle, current_iter := iter,
                    current_run := 0, activated := true })
  else
    some (cfg.current_iter, { current_cycle := cfg.current_cycle,
                              current_iter := cfg.current_iter, current_run := run,
                              activated := true })

/-- Draining the iterator: repeatedly calling __next__ and collecting the
indices of the produced Iteration records, with explicit fuel (each
produced element consumes one unit). -/
def drainAux (cs : List Nat) (numberOfCycles : Nat) :
    IterationConfiguration → Nat → List Nat
  | _, 0 => []
  | cfg, fuel + 1 =>
    match seqNext cs numberOfCycles cfg with
    | none => []
    | some (i, cfg') => i :: drainAux cs numberOfCycles cfg' fuel

/-- The tail of one scheduling cycle starting at iteration index i:
index j repeated cs[j] times, for j = i, i+1, ..., in declaration order. -/
def cycleTail (cs : List Nat) (i : Nat) : List Nat :=
  if _ : i < cs.length then List.replicate (cs.getD i 0) i ++ cycleTail cs (i + 1)
  else []
termination_by cs.length - i

/-- One full scheduling cycle: each declared iteration index i repeated
cs[i] times, in declaration order. -/
def fullCycle (cs : List Nat) : List Nat := cycleTail cs 0

/-- k consecutive full cycles. -/
def cyclesList (cs : List Nat) (k : Nat) : List Nat :=
  (List.replicate k (fullCycle cs)).flatten

/-- The schedule the spec promises for a finite run of c cycles:
cycle-major, then declaration-order, then run-order. -/
def expectedSchedule (cs : List Nat) (numberOfCycles : Nat) : List Nat :=
  cyclesList cs numberOfCycles

/-- The part of the schedule still to be produced from a given cursor
state: the rest of the current iteration's consecutive runs, the rest of
the current cycle, then the remaining full cycles. -/
def remainingSchedule (cs : List Nat) (numberOfCycles : Nat)
    (cfg : IterationConfiguration) : List Nat :=
  List.replicate (((cs.getD cfg.current_iter 0 : Int) - 1 - cfg.current_run).toNat)
      cfg.current_iter
    ++ cycleTail cs (cfg.current_iter + 1)
    ++ cyclesList cs (numberOfCycles - cfg.current_cycle - 1)

/-- Invariant satisfied by every configuration reachable from
initialize_run while elements are still being produced. -/
def ValidCfg (cs : List Nat) (numberOfCycles : Nat)
    (cfg : IterationConfiguration) : Prop :=
  cfg.current_cycle < numberOfCycles ∧ cfg.current_iter < cs.length ∧
    -1 ≤ cfg.current_run ∧ cfg.current_run < (cs.getD cfg.current_iter 0 : Nat)

lemma cycleTail_of_lt (cs : List Nat) (i : Nat) (h : i < cs.length) :
    cycleTail cs i = List.replicate (cs.getD i 0) i ++ cycleTail cs (i + 1) := by
  rw [cycleTail]; simp [h]

lemma cycleTail_of_ge (cs : List Nat) (i : Nat) (h : cs.length ≤ i) :
    cycleTail cs i = [] := by
  rw [cycleTail]; simp [Nat.not_lt.mpr h]

lemma cycleTail_length (cs : List Nat) (hpos : ∀ k ∈ cs, 1 ≤ k) :
    ∀ i, (cycleTail cs i).length = ((cs.drop i).sum) := by
  intro i
  by_cases h : i < cs.length
  · rw [cycleTail_of_lt cs i h, List.drop_eq_getElem_cons h]
    simp only [List.length_append, List.length_replicate, List.sum_cons]
    rw [cycleTail_length cs hpos (i + 1), List.getD_eq_getElem cs 0 h]
  · rw [cycleTail_of_ge cs i (Nat.not_lt.mp h), List.drop_eq_nil_of_le (Nat.not_lt.mp h)]
    rfl
termination_by i => cs.length - i
decreasing_by omega

lemma cyclesList_succ (cs : List Nat) (k : Nat) :
    cyclesList cs (k + 1) = fullCycle cs ++ cyclesList cs k := by
  simp [cyclesList, List.replicate_succ]

lemma cyclesList_length (cs : List Nat) (hpos : ∀ k ∈ cs, 1 ≤ k) (k : Nat) :
    (cyclesList cs k).length = k * cs.sum := by
  induction k with
  | zero => simp [cyclesList]
  | succ n ih =>
    rw [cyclesList_succ, List.length_append, ih, fullCycle,
      cycleTail_length cs hpos 0]
    simp [Nat.succ_mul, Nat.add_comm]

/-- Each __next__ call on a valid configuration either produces exactly
the head of the remaining schedule (moving to a valid configuration whose
remaining schedule is the tail), or signals StopIteration exactly when the
remaining schedule is empty. -/
lemma seqNext_spec (cs : List Nat) (c : Nat) (cfg : IterationConfiguration)
    (hpos : ∀ k ∈ cs, 1 ≤ k) (hv : ValidCfg cs c cfg) :
    (remainingSchedule cs c cfg = [] ∧ seqNext cs c cfg = none) ∨
    ∃ x cfg', seqNext cs c cfg = some (x, cfg') ∧ ValidCfg cs c cfg' ∧
      remainingSchedule cs c cfg = x :: remainingSchedule cs c cfg' := by
  obtain ⟨hc, hi, hr1, hr2⟩ := hv
  have hval : 1 ≤ cs.getD cfg.current_iter 0 := by
    rw [List.getD_eq_getElem cs 0 hi]
    exact hpos _ (List.getElem_mem hi)
  by_cases hrun : cfg.current_run + 1 < (cs.getD cfg.current_iter 0 : Nat)
  · -- still inside the current iteration's consecutive runs
    right
    refine ⟨cfg.current_iter,
      { current_cycle := cfg.current_cycle, current_iter := cfg.current_iter,
        current_run := cfg.current_run + 1, activated := true }, ?_, ?_, ?_⟩
    · simp only [seqNext]
      rw [if_neg (by omega)]
    · refine ⟨hc, hi, ?_, ?_⟩ <;> dsimp only <;> omega
    · simp only [remainingSchedule]
      have hcount : (((cs.getD cfg.current_iter 0 : Int) - 1 - cfg.current_run).toNat)
          = (((cs.getD cfg.current_iter 0 : Int) - 1 - (cfg.current_run + 1)).toNat) + 1 := by
        omega
      rw [hcount, List.replicate_succ]
      simp
  · -- the current iteration is exhausted
    have hrep : (((cs.getD cfg.current_iter 0 : Int) - 1 - cfg.current_run).toNat) = 0 := by
      omega
    by_cases hiter : cfg.current_iter + 1 < cs.length
    · -- moving to the next iteration within the same cycle
      right
      have hval' : 1 ≤ cs.getD (cfg.current_iter + 1) 0 := by
        rw [List.getD_eq_getElem cs 0 hiter]
        exact hpos _ (List.getElem_mem hiter)
      refine ⟨cfg.current_iter + 1,
        { current_cycle := cfg.current_cycle, current_iter := cfg.current_iter + 1,
          current_run := 0, activated := true }, ?_, ?_, ?_⟩
      · simp only [seqNext]
        rw [if_pos (by omega), if_neg (by omega)]
      · refine ⟨hc, hiter, ?_, ?_⟩ <;> dsimp only <;> omega
      · simp only [remainingSchedule, hrep, List.replicate_zero, List.nil_append]
        rw [cycleTail_of_lt cs (cfg.current_iter + 1) hiter]
        have hcount : cs.getD (cfg.current_iter + 1) 0
            = (((cs.getD (cfg.current_iter + 1) 0 : Int) - 1 - 0).toNat) + 1 := by
          omega
        conv_lhs => rw [hcount]
        rw [List.replicate_succ]
        simp
    · -- the cycle is exhausted
      have htail : cycleTail cs (cfg.current_iter + 1) = [] :=
        cycleTail_of_ge cs _ (by omega)
      by_cases hcyc : cfg.current_cycle + 1 < c
      · -- moving to the next cycle
        right
        have hn : 0 < cs.length := by omega
        have hval0 : 1 ≤ cs.getD 0 0 := by
          rw [List.getD_eq_getElem cs 0 hn]
          exact hpos _ (List.getElem_mem hn)
        refine ⟨0,
          { current_cycle := cfg.current_cycle + 1, current_iter := 0,
            current_run := 0, activated := true }, ?_, ?_, ?_⟩
        · simp only [seqNext]
          rw [if_pos (by omega), if_pos (by omega), if_neg (by omega)]
        · refine ⟨hcyc, hn, ?_, ?_⟩ <;> dsimp only <;> omega
        · simp only [remainingSchedule, hrep, List.replicate_zero, List.nil_append, htail]
          have hk : c - cfg.current_cycle - 1 = (c - (cfg.current_cycle + 1) - 1) + 1 := by
            omega
          rw [hk, cyclesList_succ, fullCycle, cycleTail_of_lt cs 0 hn]
          have hcount : cs.getD 0 0 = (((cs.getD 0 0 : Int) - 1 - 0).toNat) + 1 := by
            omega
          conv_lhs => rw [hcount]
          rw [List.replicate_succ]
          simp
      · -- the number of cycles is exceeded: StopIteration
        left
        constructor
        · simp only [remainingSchedule, hrep, List.replicate_zero, List.nil_append, htail]
          have hk : c - cfg.current_cycle - 1 = 0 := by omega
          rw [hk]
          rfl
        · simp only [seqNext]
          rw [if_pos (by omega), if_pos (by omega), if_pos (by omega)]

/-- Draining from any valid configuration with at least as much fuel as
the remaining schedule is long yields exactly the remaining schedule. -/
lemma drainAux_eq_remaining (cs : List Nat) (c : Nat) (hpos : ∀ k ∈ cs, 1 ≤ k) :
    ∀ fuel cfg, ValidCfg cs c cfg →
      (remainingSchedule cs c cfg).length ≤ fuel →
      drainAux cs c cfg fuel = remainingSchedule cs c cfg := by
  intro fuel
  induction fuel with
  | zero =>
    intro cfg _ hle
    rw [List.eq_nil_of_length_eq_zero (Nat.le_zero.mp hle)]
    rfl
  | succ n ih =>
    intro cfg hv hle
    rcases seqNext_spec cs c cfg hpos hv with ⟨hnil, hnone⟩ | ⟨x, cfg', hsn, hv', hrem⟩
    · rw [hnil]
      simp [drainAux, hnone]
    · rw [hrem]
      simp only [drainAux, hsn]
      rw [ih cfg' hv' (by rw [hrem] at hle; simpa using hle)]

/-- The initial configuration produced by initialize_run is valid and its
remaining schedule is the full expected schedule. -/
lemma remaining_initial (cs : List Nat) (c : Nat) (hpos : ∀ k ∈ cs, 1 ≤ k)
    (hn : 0 < cs.length) (hc : 1 ≤ c) :
    ValidCfg cs c initialConfiguration ∧
      remainingSchedule cs c initialConfiguration = expectedSchedule cs c := by
  have hval0 : 1 ≤ cs.getD 0 0 := by
    rw [List.getD_eq_getElem cs 0 hn]
    exact hpos _ (List.getElem_mem hn)
  refine ⟨⟨hc, hn, by simp [initialConfiguration], ?_⟩, ?_⟩
  · simp only [initialConfiguration]
    omega
  · simp only [remainingSchedule, initialConfiguration, expectedSchedule]
    have hk : c - 0 - 1 + 1 = c := by omega
    have hcount : (((cs.getD 0 0 : Int) - 1 - (-1)).toNat) = cs.getD 0 0 := by omega
    rw [hcount, ← hk, cyclesList_succ, fullCycle, cycleTail_of_lt cs 0 hn]
    simp

/-! ## Errors

Embedding of the exception classes of src/learning/errors.py (equal
classes in src/learning/components/errors.py, per the import lists of
the components modules). -/

deriving instance DecidableEq for Except

inductive LearningError
  | missingStimulus (name : String)
  | missingArea (name : String)
  | sequenceRunNotInitialized
  | sequenceFinalizationError
  | noPathException (source output : String)
  | illegalOutputAreasException (outputAreas : List String)
  | modelInactivated
  | domainSizeMismatch
  | stimuliMismatch
  | maxAttemptsToGenerateStimuliReached
  | zeroDivisionError
  | inputStimuliMisused
  deriving Repr, DecidableEq

/-- IllegalOutputAreasException.__str__ from errors.py: the rendered
message distinguishes the zero-output case from the multiple-output
case. -/
def illegalOutputAreasMessage (outputAreas : List String) : String :=
  if outputAreas.length = 0 then
    "An output area must be part of the sequence"
  else
    "Found " ++ toString outputAreas.length ++ " output areas (" ++
      String.intercalate "," outputAreas ++ "), while there can only be one"

/-- LearningSequence.__iter__ (sequence.py lines 74-77): fails with
SequenceRunNotInitialized when no configuration is live or the live
configuration has already been activated. -/
def seqIter (configuration : Option IterationConfiguration) :
    Except LearningError Unit :=
  match configuration with
  | none => .error .sequenceRunNotInitialized
  | some cfg =>
    if cfg.activated then .error .sequenceRunNotInitialized else .ok ()

lemma seqNext_activated (cs : List Nat) (c : Nat) (cfg : IterationConfiguration)
    (x : Nat) (cfg' : IterationConfiguration)
    (h : seqNext cs c cfg = some (x, cfg')) : cfg'.activated = true := by
  simp only [seqNext] at h
  split at h
  · split at h
    · split at h
      · simp at h
      · simp only [Option.some.injEq, Prod.mk.injEq] at h
        rw [← h.2]
    · simp only [Option.some.injEq, Prod.mk.injEq] at h
      rw [← h.2]
  · simp only [Option.some.injEq, Prod.mk.injEq] at h
    rw [← h.2]

/-! ## Sequence graph and connectivity

Embedding of the networkx DiGraph used by LearningSequence
(components/sequence.py).  Python encodes node kinds as string tags
glued in front of the name ('stimulus-X', 'input-bit-3', 'area-A',
'output-O') and recovers them with startswith / slicing; here a node is
the pair of its kind tag and its name.  Edge weights accumulate on
re-adding an edge; the 2-D display positions are used only by
display() and are not modelled. -/

inductive NodeKind
  | stimulus
  | inputBit
  | area
  | output
  deriving Repr, DecidableEq

structure Node where
  kind : NodeKind
  name : String
  deriving Repr, DecidableEq

structure SeqGraph where
  nodes : List Node
  edges : List (Node × Node × Nat)
  deriving Repr, DecidableEq

def SeqGraph.addNode (g : SeqGraph) (n : Node) : SeqGraph :=
  if n ∈ g.nodes then g else { g with nodes := g.nodes ++ [n] }

/-- LearningSequence._add_edge: insert both endpoints (in order), then
either accumulate onto the existing edge's weight or append a new
edge. -/
def SeqGraph.addEdge (g : SeqGraph) (s t : Node) (w : Nat) : SeqGraph :=
  let g := (g.addNode s).addNode t
  if g.edges.any (fun e => decide (e.1 = s ∧ e.2.1 = t)) then
    { g with edges := g.edges.map fun e =>
        if e.1 = s ∧ e.2.1 = t then (e.1, e.2.1, e.2.2 + w) else e }
  else
    { g with edges := g.edges ++ [(s, t, w)] }

/-- The directed-edge relation of the graph. -/
def Adj (edges : List (Node × Node × Nat)) (a b : Node) : Prop :=
  ∃ w, (a, b, w) ∈ edges

/-- A well-formed graph: every edge endpoint is a registered node
(guaranteed by addEdge). -/
def SeqGraph.WF (g : SeqGraph) : Prop :=
  ∀ e ∈ g.edges, e.1 ∈ g.nodes ∧ e.2.1 ∈ g.nodes

instance (g : SeqGraph) : Decidable g.WF :=
  inferInstanceAs (Decidable (∀ e ∈ g.edges, e.1 ∈ g.nodes ∧ e.2.1 ∈ g.nodes))

/-- One-step successors of a set of nodes. -/
def succsFin (edges : List (Node × Node × Nat)) (S : Finset Node) : Finset Node :=
  (edges.filterMap fun e => if e.1 ∈ S then some e.2.1 else none).toFinset

/-- One saturation step of the reachable-set computation. -/
def reachIter (edges : List (Node × Node × Nat)) (S : Finset Node) : Finset Node :=
  S ∪ succsFin edges S

/-- Decision procedure for networkx has_path: saturate the reachable set
for as many steps as the graph has nodes. -/
def hasPathB (g : SeqGraph) (s t : Node) : Bool :=
  t ∈ (reachIter g.edges)^[g.nodes.length] {s}

lemma mem_succsFin {edges : List (Node × Node × Nat)} {S : Finset Node} {y : Node} :
    y ∈ succsFin edges S ↔ ∃ x ∈ S, Adj edges x y := by
  simp only [succsFin, List.mem_toFinset, List.mem_filterMap, Adj]
  constructor
  · rintro ⟨e, he, hif⟩
    split at hif
    · cases hif
      exact ⟨e.1, by assumption, e.2.2, by simpa using he⟩
    · cases hif
  · rintro ⟨x, hx, w, hw⟩
    exact ⟨(x, y, w), hw, by simp [hx]⟩

lemma subset_reachIter (edges : List (Node × Node × Nat)) (S : Finset Node) :
    S ⊆ reachIter edges S :=
  Finset.subset_union_left

lemma reachIter_iterate_subset_succ (edges : List (Node × Node × Nat))
    (S : Finset Node) (k : Nat) :
    (reachIter edges)^[k] S ⊆ (reachIter edges)^[k + 1] S := by
  rw [Function.iterate_succ_apply']
  exact subset_reachIter edges _

lemma reachIter_iterate_mono (edges : List (Node × Node × Nat)) (S : Finset Node)
    {j m : Nat} (h : j ≤ m) :
    (reachIter edges)^[j] S ⊆ (reachIter edges)^[m] S := by
  induction m with
  | zero => rw [Nat.le_zero.mp h]
  | succ n ih =>
    rcases Nat.lt_or_ge j (n + 1) with hj | hj
    · exact (ih (by omega)).trans (reachIter_iterate_subset_succ edges S n)
    · have : j = n + 1 := by omega
      rw [this]

lemma reachIter_stable (edges : List (Node × Node × Nat)) (S : Finset Node)
    {k : Nat} (h : (reachIter edges)^[k + 1] S = (reachIter edges)^[k] S) :
    ∀ m, k ≤ m → (reachIter edges)^[m] S = (reachIter edges)^[k] S := by
  intro m hm
  induction m with
  | zero => rw [Nat.le_zero.mp hm]
  | succ n ih =>
    rcases Nat.lt_or_ge k (n + 1) with hk | hk
    · rw [Function.iterate_succ_apply', ih (by omega),
        show reachIter edges ((reachIter edges)^[k] S)
          = (reachIter edges)^[k + 1] S from (Function.iterate_succ_apply' _ _ _).symm, h]
    · have : k = n + 1 := by omega
      rw [this]

lemma reach_subset_nodes {g : SeqGraph} (hwf : g.WF) {s : Node} (hs : s ∈ g.nodes)
    (k : Nat) : (reachIter g.edges)^[k] {s} ⊆ g.nodes.toFinset := by
  induction k with
  | zero =>
    intro x hx
    simp only [Function.iterate_zero, id, Finset.mem_singleton] at hx
    subst hx
    simpa using hs
  | succ n ih =>
    rw [Function.iterate_succ_apply']
    intro x hx
    rcases Finset.mem_union.mp hx with hx | hx
    · exact ih hx
    · obtain ⟨y, _, w, hw⟩ := mem_succsFin.mp hx
      simpa using (hwf _ hw).2

lemma reachIter_exists_stab {g : SeqGraph} (hwf : g.WF) {s : Node}
    (hs : s ∈ g.nodes) :
    ∃ k < g.nodes.length,
      (reachIter g.edges)^[k + 1] {s} = (reachIter g.edges)^[k] {s} := by
  by_contra hcon
  push_neg at hcon
  have hcard : ∀ k ≤ g.nodes.length, k + 1 ≤ ((reachIter g.edges)^[k] {s}).card := by
    intro k
    induction k with
    | zero => simp
    | succ n ih =>
      intro hn
      have hne := hcon n (by omega)
      have hss : (reachIter g.edges)^[n] {s} ⊂ (reachIter g.edges)^[n + 1] {s} :=
        HasSubset.Subset.ssubset_of_ne (reachIter_iterate_subset_succ g.edges {s} n)
          (Ne.symm hne)
      have := Finset.card_lt_card hss
      have := ih (by omega)
      omega
  have h1 := hcard g.nodes.length le_rfl
  have h2 := Finset.card_le_card (reach_subset_nodes hwf hs g.nodes.length)
  have h3 := List.toFinset_card_le g.nodes
  omega

lemma reachIter_fixpoint {g : SeqGraph} (hwf : g.WF) {s : Node} (hs : s ∈ g.nodes) :
    reachIter g.edges ((reachIter g.edges)^[g.nodes.length] {s})
      = (reachIter g.edges)^[g.nodes.length] {s} := by
  obtain ⟨k, hk, hstab⟩ := reachIter_exists_stab hwf hs
  have hN := reachIter_stable g.edges {s} hstab g.nodes.length (by omega)
  have hN1 := reachIter_stable g.edges {s} hstab (g.nodes.length + 1) (by omega)
  calc reachIter g.edges ((reachIter g.edges)^[g.nodes.length] {s})
      = (reachIter g.edges)^[g.nodes.length + 1] {s} :=
        (Function.iterate_succ_apply' _ _ _).symm
    _ = (reachIter g.edges)^[k] {s} := hN1
    _ = (reachIter g.edges)^[g.nodes.length] {s} := hN.symm

lemma reach_sound {edges : List (Node × Node × Nat)} {s : Node} (k : Nat) :
    ∀ x ∈ (reachIter edges)^[k] {s}, Relation.ReflTransGen (Adj edges) s x := by
  induction k with
  | zero =>
    intro x hx
    simp only [Function.iterate_zero, id, Finset.mem_singleton] at hx
    subst hx
    exact Relation.ReflTransGen.refl
  | succ n ih =>
    rw [Function.iterate_succ_apply']
    intro x hx
    rcases Finset.mem_union.mp hx with hx | hx
    · exact ih x hx
    · obtain ⟨y, hy, hadj⟩ := mem_succsFin.mp hx
      exact Relation.ReflTransGen.tail (ih y hy) hadj

lemma reach_complete {g : SeqGraph} (hwf : g.WF) {s t : Node} (hs : s ∈ g.nodes)
    (h : Relation.ReflTransGen (Adj g.edges) s t) :
    t ∈ (reachIter g.edges)^[g.nodes.length] {s} := by
  induction h with
  | refl =>
    exact reachIter_iterate_mono g.edges {s} (Nat.zero_le _) (by simp)
  | tail _ hadj ih =>
    have hfix := reachIter_fixpoint hwf hs
    rw [← hfix]
    exact Finset.mem_union.mpr (Or.inr (mem_succsFin.mpr ⟨_, ih, hadj⟩))

/-- hasPathB decides the existence of a directed path (reflexive
transitive closure of the edge relation), for sources registered in a
well-formed graph — the situation in which networkx has_path is
called. -/
lemma hasPathB_iff {g : SeqGraph} (hwf : g.WF) {s t : Node} (hs : s ∈ g.nodes) :
    hasPathB g s t = true ↔ Relation.ReflTransGen (Adj g.edges) s t := by
  unfold hasPathB
  constructor
  · intro h
    exact reach_sound g.nodes.length t (by simpa using h)
  · intro h
    simpa using reach_complete hwf hs h

/-! ## Brain registries and LearningSequence operations

The substrate (brain module) is external; this engine only consults its
three name registries, embedded as lists of names in registration
order. -/

structure Brain where
  areas : List String
  outputAreas : List String
  stimuli : List String
  deriving Repr, DecidableEq

/-- LearningSequence._verify_stimulus. -/
def verifyStimulus (brain : Brain) (stimulusName : String) :
    Except LearningError Unit :=
  if stimulusName ∈ brain.stimuli then .ok ()
  else .error (.missingStimulus stimulusName)

/-- LearningSequence._verify_and_get_area.  The caller only uses the
returned object's runtime type, so the embedding returns whether the
name resolves to an OutputArea (areas take priority in the lookup
areas.get(name, output_areas.get(name))). -/
def verifyAndGetArea (brain : Brain) (areaName : String) :
    Except LearningError Bool :=
  if areaName ∈ brain.areas ∨ areaName ∈ brain.outputAreas then
    .ok (decide (areaName ∉ brain.areas ∧ areaName ∈ brain.outputAreas))
  else .error (.missingArea areaName)

/-- LearningSequence.Iteration (components/sequence.py): the three
mappings (insertion-ordered association lists) and consecutive_runs. -/
structure IterationRec where
  stimuliToAreas : List (String × List String)
  inputBitsToAreas : List (Nat × List String)
  areasToAreas : List (String × List String)
  consecutiveRuns : Nat
  deriving Repr, DecidableEq

structure SequenceState where
  graph : SeqGraph
  iterations : List IterationRec
  configuration : Option IterationConfiguration
  outputArea : Option String
  finalized : Bool
  deriving Repr, DecidableEq

/-- LearningSequence.__init__. -/
def initialSequenceState : SequenceState :=
  { graph := ⟨[], []⟩, iterations := [], configuration := none,
    outputArea := none, finalized := false }

/-- Target processing shared by the three loops of add_iteration:
resolve each target area's kind and add the edge from src. -/
def addTargets (brain : Brain) (src : Node) (w : Nat) :
    SeqGraph → List String → Except LearningError SeqGraph
  | g, [] => .ok g
  | g, t :: ts => do
    let isOutput ← verifyAndGetArea brain t
    let node : Node := ⟨if isOutput then .output else .area, t⟩
    addTargets brain src w (g.addEdge src node w) ts

def addStimulusEdges (brain : Brain) (w : Nat) :
    SeqGraph → List (String × List String) → Except LearningError SeqGraph
  | g, [] => .ok g
  | g, (sourceStimulus, targets) :: rest => do
    verifyStimulus brain sourceStimulus
    let g ← addTargets brain ⟨.stimulus, sourceStimulus⟩ w g targets
    addStimulusEdges brain w g rest

def addInputBitEdges (brain : Brain) (w : Nat) :
    SeqGraph → List (Nat × List String) → Except LearningError SeqGraph
  | g, [] => .ok g
  | g, (sourceInputBit, targets) :: rest => do
    let g ← addTargets brain ⟨.inputBit, toString sourceInputBit⟩ w g targets
    addInputBitEdges brain w g rest

def addAreaEdges (brain : Brain) (w : Nat) :
    SeqGraph → List (String × List String) → Except LearningError SeqGraph
  | g, [] => .ok g
  | g, (sourceArea, targets) :: rest => do
    _ ← verifyAndGetArea brain sourceArea
    let g ← addTargets brain ⟨.area, sourceArea⟩ w g targets
    addAreaEdges brain w g rest

/-- LearningSequence.add_iteration (components/sequence.py lines
141-192): refuse if finalized, process the three mappings in source
order, then append the new Iteration record. -/
def addIteration (brain : Brain) (st : SequenceState)
    (stimuliToAreas : List (String × List String))
    (inputBitsToAreas : List (Nat × List String))
    (areasToAreas : List (String × List String))
    (consecutiveRuns : Nat) : Except LearningError SequenceState :=
  if st.finalized then .error .sequenceFinalizationError
  else do
    let g ← addStimulusEdges brain consecutiveRuns st.graph stimuliToAreas
    let g ← addInputBitEdges brain consecutiveRuns g inputBitsToAreas
    let g ← addAreaEdges brain consecutiveRuns g areasToAreas
    .ok { st with
          graph := g,
          iterations := st.iterations ++
            [⟨stimuliToAreas, inputBitsToAreas, areasToAreas, consecutiveRuns⟩] }

/-- The graph's nodes of a given kind, in node insertion order (the
startswith-based list comprehensions of the verification helpers). -/
def nodesOfKind (g : SeqGraph) (k : NodeKind) : List Node :=
  g.nodes.filter fun n => decide (n.kind = k)

/-- The names of the output-tagged nodes, in node insertion order
(LearningSequence._verify_single_output_area's list comprehension). -/
def outputNodes (g : SeqGraph) : List String :=
  (nodesOfKind g .output).map Node.name

/-- LearningSequence._verify_single_output_area. -/
def verifySingleOutputArea (g : SeqGraph) : Except LearningError String :=
  match outputNodes g with
  | [o] => .ok o
  | outs => .error (.illegalOutputAreasException outs)

/-- The nested loops of the two connectivity verifications: the first
(source, output) pair without a path, in node order. -/
def firstDisconnected (g : SeqGraph) (sources outs : List Node) :
    Option (Node × Node) :=
  sources.findSome? fun s =>
    outs.findSome? fun o => if hasPathB g s o then none else some (s, o)

/-- LearningSequence._verify_stimuli_are_connected_to_output. -/
def verifyStimuliConnected (g : SeqGraph) : Except LearningError Unit :=
  match firstDisconnected g (nodesOfKind g .stimulus) (nodesOfKind g .output) with
  | some (s, o) => .error (.noPathException s.name o.name)
  | none => .ok ()

/-- LearningSequence._verify_input_bits_are_connected_to_output. -/
def verifyInputBitsConnected (g : SeqGraph) : Except LearningError Unit :=
  match firstDisconnected g (nodesOfKind g .inputBit) (nodesOfKind g .output) with
  | some (s, o) => .error (.noPathException s.name o.name)
  | none => .ok ()

/-- LearningSequence.finalize_sequence (components/sequence.py lines
102-109): verify the single output area, bind it, then verify input-bit
and stimulus connectivity.  Note the source never sets _finalized to
True, and neither does this embedding. -/
def finalizeSequence (st : SequenceState) : Except LearningError SequenceState := do
  let outputName ← verifySingleOutputArea st.graph
  let st := { st with outputArea := some outputName }
  verifyInputBitsConnected st.graph
  verifyStimuliConnected st.graph
  .ok st

/-- LearningSequence.initialize_run for a finite number_of_cycles:
finalize first when not yet finalized, then install a fresh cursor. -/
def initializeRun (st : SequenceState) : Except LearningError SequenceState := do
  let st ← if st.finalized then .ok st else finalizeSequence st
  .ok { st with configuration := some initialConfiguration }

lemma mem_nodesOfKind {g : SeqGraph} {k : NodeKind} {n : Node} :
    n ∈ nodesOfKind g k ↔ n ∈ g.nodes ∧ n.kind = k := by
  simp [nodesOfKind, List.mem_filter]

lemma nodesOfKind_output_single {g : SeqGraph} {o : String}
    (h : outputNodes g = [o]) : nodesOfKind g .output = [⟨.output, o⟩] := by
  unfold outputNodes at h
  rcases hl : nodesOfKind g .output with _ | ⟨n, tl⟩
  · rw [hl] at h
    simp at h
  · rw [hl] at h
    rcases tl with _ | ⟨m, tl'⟩
    · simp only [List.map_cons, List.map_nil, List.cons.injEq, and_true] at h
      have hk : n.kind = .output := (mem_nodesOfKind.mp (hl ▸ List.mem_singleton_self n)).2
      cases n
      simp_all
    · simp at h

lemma firstDisconnected_single_eq_none {g : SeqGraph} {sources : List Node}
    {out : Node} :
    firstDisconnected g sources [out] = none ↔
      ∀ s ∈ sources, hasPathB g s out = true := by
  unfold firstDisconnected
  rw [List.findSome?_eq_none_iff]
  constructor
  · intro h s hs
    by_cases hp : hasPathB g s out = true
    · exact hp
    · have := h s hs
      simp [List.findSome?, hp] at this
  · intro h s hs
    simp [List.findSome?, h s hs]

lemma firstDisconnected_single_eq_some {g : SeqGraph} {sources : List Node}
    {out s o : Node} (h : firstDisconnected g sources [out] = some (s, o)) :
    s ∈ sources ∧ o = out ∧ hasPathB g s out = false := by
  obtain ⟨a, ha, hfa⟩ := List.exists_of_findSome?_eq_some h
  by_cases hp : hasPathB g a out = true
  · simp [List.findSome?, hp] at hfa
  · simp only [List.findSome?, hp, if_neg, Bool.false_eq_true, ite_false,
      Option.some.injEq, Prod.mk.injEq] at hfa
    obtain ⟨rfl, rfl⟩ := hfa
    exact ⟨ha, rfl, by simpa using hp⟩

lemma verifySingleOutputArea_eq_ok {g : SeqGraph} {o : String}
    (h : outputNodes g = [o]) : verifySingleOutputArea g = .ok o := by
  unfold verifySingleOutputArea
  rw [h]

lemma verifySingleOutputArea_eq_error {g : SeqGraph}
    (h : (outputNodes g).length ≠ 1) :
    verifySingleOutputArea g
      = .error (.illegalOutputAreasException (outputNodes g)) := by
  unfold verifySingleOutputArea
  rcases hl : outputNodes g with _ | ⟨a, _ | ⟨b, t⟩⟩
  · rfl
  · exact absurd (by rw [hl]; rfl) h
  · rfl

/-- C4: finalize_sequence fails with IllegalOutputAreasException whenever
the graph has zero or more than one output-tagged node (the rendered
message distinguishing the zero case from the multiple case), fails with
NoPathException naming a disconnected stimulus- or input-bit-tagged
source and the single output node whenever such a source has no directed
path to it, and succeeds otherwise (binding the output area). -/
theorem c4_finalize_verification (st : SequenceState) (hwf : st.graph.WF) :
    ((outputNodes st.graph).length ≠ 1 →
      finalizeSequence st
        = .error (.illegalOutputAreasException (outputNodes st.graph))) ∧
    (∀ o, outputNodes st.graph = [o] →
      ((∀ s ∈ st.graph.nodes, s.kind = .stimulus ∨ s.kind = .inputBit →
          Relation.ReflTransGen (Adj st.graph.edges) s ⟨.output, o⟩) →
        finalizeSequence st = .ok { st with outputArea := some o }) ∧
      ((∃ s ∈ st.graph.nodes, (s.kind = .stimulus ∨ s.kind = .inputBit) ∧
          ¬ Relation.ReflTransGen (Adj st.graph.edges) s ⟨.output, o⟩) →
        ∃ s, s ∈ st.graph.nodes ∧ (s.kind = .stimulus ∨ s.kind = .inputBit) ∧
          ¬ Relation.ReflTransGen (Adj st.graph.edges) s ⟨.output, o⟩ ∧
          finalizeSequence st = .error (.noPathException s.name o))) ∧
    (∀ outs outs' : List String, outs.length = 0 → 2 ≤ outs'.length →
      illegalOutputAreasMessage outs ≠ illegalOutputAreasMessage outs') := by
  refine ⟨?_, ?_, ?_⟩
  · -- zero or multiple output nodes
    intro h
    have h1 := verifySingleOutputArea_eq_error h
    simp [finalizeSequence, h1, Bind.bind, Except.bind]
  · intro o ho
    have h1 := verifySingleOutputArea_eq_ok ho
    constructor
    · -- all sources connected: success
      intro hconn
      have hbits : verifyInputBitsConnected st.graph = .ok () := by
        unfold verifyInputBitsConnected
        rw [nodesOfKind_output_single ho]
        have hnone : firstDisconnected st.graph (nodesOfKind st.graph .inputBit)
            [⟨.output, o⟩] = none := by
          rw [firstDisconnected_single_eq_none]
          intro s hs
          obtain ⟨hmem, hkind⟩ := mem_nodesOfKind.mp hs
          exact (hasPathB_iff hwf hmem).mpr (hconn s hmem (Or.inr hkind))
        rw [hnone]
      have hstims : verifyStimuliConnected st.graph = .ok () := by
        unfold verifyStimuliConnected
        rw [nodesOfKind_output_single ho]
        have hnone : firstDisconnected st.graph (nodesOfKind st.graph .stimulus)
            [⟨.output, o⟩] = none := by
          rw [firstDisconnected_single_eq_none]
          intro s hs
          obtain ⟨hmem, hkind⟩ := mem_nodesOfKind.mp hs
          exact (hasPathB_iff hwf hmem).mpr (hconn s hmem (Or.inl hkind))
        rw [hnone]
      simp [finalizeSequence, h1, hbits, hstims, Bind.bind, Except.bind]
    · -- some source disconnected: NoPathException
      rintro ⟨s0, hs0mem, hs0kind, hs0nc⟩
      rcases hfd : firstDisconnected st.graph (nodesOfKind st.graph .inputBit)
          [⟨.output, o⟩] with _ | ⟨s', o'⟩
      · -- all input bits connected; the culprit is a stimulus
        have hbits : verifyInputBitsConnected st.graph = .ok () := by
          unfold verifyInputBitsConnected
          rw [nodesOfKind_output_single ho, hfd]
        have hallbits := firstDisconnected_single_eq_none.mp hfd
        have hs0stim : s0.kind = .stimulus := by
          rcases hs0kind with h | h
          · exact h
          · exact absurd ((hasPathB_iff hwf hs0mem).mp
              (hallbits s0 (mem_nodesOfKind.mpr ⟨hs0mem, h⟩))) hs0nc
        rcases hfs : firstDisconnected st.graph (nodesOfKind st.graph .stimulus)
            [⟨.output, o⟩] with _ | ⟨s1, o1⟩
        · exact absurd ((hasPathB_iff hwf hs0mem).mp
            (firstDisconnected_single_eq_none.mp hfs s0
              (mem_nodesOfKind.mpr ⟨hs0mem, hs0stim⟩))) hs0nc
        · obtain ⟨hs1mem, ho1, hs1np⟩ := firstDisconnected_single_eq_some hfs
          obtain ⟨hs1nodes, hs1kind⟩ := mem_nodesOfKind.mp hs1mem
          have hstims : verifyStimuliConnected st.graph
              = .error (.noPathException s1.name o) := by
            unfold verifyStimuliConnected
            rw [nodesOfKind_output_single ho, hfs, ho1]
          refine ⟨s1, hs1nodes, Or.inl hs1kind, ?_, ?_⟩
          · intro hr
            rw [← hasPathB_iff hwf hs1nodes] at hr
            rw [hs1np] at hr
            cases hr
          · simp [finalizeSequence, h1, hbits, hstims, Bind.bind, Except.bind]
      · -- the input-bit check itself fails first
        obtain ⟨hs'mem, ho', hs'np⟩ := firstDisconnected_single_eq_some hfd
        obtain ⟨hs'nodes, hs'kind⟩ := mem_nodesOfKind.mp hs'mem
        have hbits : verifyInputBitsConnected st.graph
            = .error (.noPathException s'.name o) := by
          unfold verifyInputBitsConnected
          rw [nodesOfKind_output_single ho, hfd, ho']
        refine ⟨s', hs'nodes, Or.inr hs'kind, ?_, ?_⟩
        · intro hr
          rw [← hasPathB_iff hwf hs'nodes] at hr
          rw [hs'np] at hr
          cases hr
        · simp [finalizeSequence, h1, hbits, Bind.bind, Except.bind]
  · -- the rendered messages for zero and for multiple outputs differ
    intro outs outs' h0 h2 heq
    rw [List.eq_nil_of_length_eq_zero h0] at heq
    unfold illegalOutputAreasMessage at heq
    have hne : ¬ outs'.length = 0 := by omega
    rw [if_neg hne, if_pos (by simp)] at heq
    have hd := congrArg (fun s : String => s.data.head?) heq
    simp only [String.data_append] at hd
    simp at hd

/-! ## Claim theorems for the scheduler and sequence lifecycle -/

/-- Claim C1, counterexample: with consecutive_runs = [2,1,3] and c = 1,
draining the iterator yields [it0, it0, it1, it2, it2, it2] — 6 elements,
not c × (number of declared iterations) = 1 × 3 as the claim states. -/
theorem c1_count_counterexample :
    drainAux [2, 1, 3] 1 initialConfiguration 10 = [0, 0, 1, 2, 2, 2] ∧
      ((drainAux [2, 1, 3] 1 initialConfiguration 10).length = 1 * 3 → False) := by
  decide

/-- Claim C1 (amended): for a nonempty declared iteration list with all
consecutive_runs ≥ 1 and finite c ≥ 1, draining the iterator after
initialize_run(c) yields exactly c × (sum of consecutive_runs) elements,
cycle-major, then declaration-order, then run-order, each declared
iteration returned consecutive_runs times consecutively; any amount of
extra fuel produces nothing further (advancing past the last element
signals StopIteration, not an error). -/
theorem c1_drain_yields_schedule (cs : List Nat) (c fuel : Nat)
    (hpos : ∀ k ∈ cs, 1 ≤ k) (hn : 0 < cs.length) (hc : 1 ≤ c)
    (hfuel : c * cs.sum ≤ fuel) :
    drainAux cs c initialConfiguration fuel = expectedSchedule cs c ∧
      (expectedSchedule cs c).length = c * cs.sum := by
  obtain ⟨hv, hrem⟩ := remaining_initial cs c hpos hn hc
  have hlen : (expectedSchedule cs c).length = c * cs.sum :=
    cyclesList_length cs hpos c
  refine ⟨?_, hlen⟩
  rw [← hrem]
  exact drainAux_eq_remaining cs c hpos fuel _ hv
    (by rw [hrem, hlen]; exact hfuel)

/-- Witness for c1_drain_yields_schedule at cs = [2,1,3], c = 1,
fuel = 6. -/
theorem c1_drain_yields_schedule_witness :
    (∀ k ∈ [2, 1, 3], 1 ≤ k) ∧ 0 < ([2, 1, 3] : List Nat).length ∧
      (1 : Nat) ≤ 1 ∧ 1 * ([2, 1, 3] : List Nat).sum ≤ 6 ∧
      (drainAux [2, 1, 3] 1 initialConfiguration 6 = expectedSchedule [2, 1, 3] 1 ∧
        (expectedSchedule [2, 1, 3] 1).length = 1 * ([2, 1, 3] : List Nat).sum) :=
  ⟨by decide, by decide, by decide, by decide,
    c1_drain_yields_schedule [2, 1, 3] 1 6 (by decide) (by decide) (by decide)
      (by decide)⟩

/-- The brain used by the concrete finalize/add_iteration scenarios: one
plain area A, one output area out, one stimulus s. -/
def c2Brain : Brain := { areas := ["A"], outputAreas := ["out"], stimuli := ["s"] }

/-- The scenario of claim C2: declare one iteration firing s into the
output area, finalize successfully, then call add_iteration again. -/
def c2Pipeline : Except LearningError SequenceState := do
  let st1 ← addIteration c2Brain initialSequenceState [("s", ["out"])] [] [] 1
  let st2 ← finalizeSequence st1
  addIteration c2Brain st2 [("s", ["out"])] [] [] 1

/-- Claim C2, code bug: finalize_sequence never sets _finalized, so
add_iteration after a successful finalize_sequence() does not raise
SequenceFinalizationError — it succeeds and appends a second iteration,
contradicting finalize_sequence's own docstring ("The sequence cannot be
edited after that"). -/
theorem c2_add_iteration_after_finalize_succeeds :
    c2Pipeline.isOk = true ∧
      c2Pipeline ≠ .error .sequenceFinalizationError ∧
      c2Pipeline.map (fun st => (st.iterations.length, st.finalized))
        = .ok (2, false) := by
  decide

/-- The concrete sequence state used to witness c4_finalize_verification:
a stimulus node with one edge into a single output node. -/
def c4ExampleState : SequenceState :=
  { graph := { nodes := [⟨.stimulus, "s"⟩, ⟨.output, "out"⟩],
               edges := [(⟨.stimulus, "s"⟩, ⟨.output, "out"⟩, 1)] },
    iterations := [], configuration := none, outputArea := none,
    finalized := false }

/-- Witness for c4_finalize_verification: on the connected single-output
example state, finalize succeeds and binds the output area. -/
theorem c4_finalize_verification_witness :
    c4ExampleState.graph.WF ∧
      finalizeSequence c4ExampleState
        = .ok { c4ExampleState with outputArea := some "out" } := by
  have hwf : c4ExampleState.graph.WF := by decide
  refine ⟨hwf, ?_⟩
  refine ((c4_finalize_verification c4ExampleState hwf).2.1 "out" (by decide)).1 ?_
  intro s hs hk
  have hs' : s = ⟨.stimulus, "s"⟩ ∨ s = ⟨.output, "out"⟩ := by
    simpa [c4ExampleState] using hs
  rcases hs' with rfl | rfl
  · exact Relation.ReflTransGen.single ⟨1, by simp [c4ExampleState]⟩
  · rcases hk with h | h <;> simp at h

/-- Claim C8: requesting iteration via __iter__ before any
initialize_run (the constructor leaves no live configuration), or again
after the configuration has already produced an element (every __next__
sets activated), fails with SequenceRunNotInitialized. -/
theorem c8_iter_requires_initialized_run :
    initialSequenceState.configuration = none ∧
    seqIter none = .error .sequenceRunNotInitialized ∧
    ∀ (cs : List Nat) (c : Nat) (cfg : IterationConfiguration) (x : Nat)
      (cfg' : IterationConfiguration), seqNext cs c cfg = some (x, cfg') →
      seqIter (some cfg') = .error .sequenceRunNotInitialized := by
  refine ⟨rfl, rfl, ?_⟩
  intro cs c cfg x cfg' h
  simp [seqIter, seqNext_activated cs c cfg x cfg' h]

/-- Witness for c8_iter_requires_initialized_run: the first element of a
one-iteration sequence activates the configuration, after which __iter__
fails. -/
theorem c8_iter_requires_initialized_run_witness :
    seqNext [1] 1 initialConfiguration
        = some (0, ⟨0, 0, 0, true⟩) ∧
      seqIter (some ⟨0, 0, 0, true⟩) = .error .sequenceRunNotInitialized :=
  ⟨by decide,
    c8_iter_requires_initialized_run.2.2 [1] 1 initialConfiguration 0
      ⟨0, 0, 0, true⟩ (by decide)⟩

/-! ## Input encoding (src/learning/components/input.py)

InputStimuli synthesizes stimulus-name pairs per input bit, retrying
with an increasing disambiguation suffix on collision with a registered
stimulus, bounded by MAX_ATTEMPTS.  An area specification is either a
single area name or a list of area names (Python Union[str, List[str]]);
the wrong-type branches of the validations are ruled out by the Lean
types. -/

inductive AreaSpec
  | single (name : String)
  | multi (names : List String)
  deriving Repr, DecidableEq

def MAX_ATTEMPTS : Nat := 100

/-- InputStimuli._format_stimulus_name, via
AUTO_GENERATED_STIMULUS_NAME_FORMAT and
AUTO_GENERATED_STIMULUS_NAME_POSTFIX. -/
def formatStimulusName (areaName : String) (inputBitValue : Nat)
    (attemptCounter : Nat) : String :=
  let suffixPart :=
    if attemptCounter = 1 then "" else "_(" ++ toString attemptCounter ++ ")"
  "__s_" ++ areaName ++ "_" ++ toString inputBitValue ++ suffixPart

/-- The area-name component used in generated names: a list
specification is joined with '_'. -/
def joinedAreaName : AreaSpec → String
  | .single n => n
  | .multi l => String.intercalate "_" l

/-- The while-loop of InputStimuli._get_available_stimulus_name.  The
fuel argument is MAX_ATTEMPTS + 1 - attempt throughout, so the fuel-0
branch is never reached from the entry point. -/
def nameLoop (stimuli : List String) (areaName : String) (v : Nat) :
    Nat → Nat → Except LearningError String
  | attempt, fuel =>
    let stimulusName := formatStimulusName areaName v attempt
    if stimulusName ∈ stimuli then
      if attempt = MAX_ATTEMPTS then .error .maxAttemptsToGenerateStimuliReached
      else
        match fuel with
        | 0 => .error .maxAttemptsToGenerateStimuliReached
        | fuel' + 1 => nameLoop stimuli areaName v (attempt + 1) fuel'
    else .ok stimulusName

/-- InputStimuli._get_available_stimulus_name. -/
def getAvailableStimulusName (stimuli : List String) (spec : AreaSpec)
    (v : Nat) : Except LearningError String :=
  nameLoop stimuli (joinedAreaName spec) v 1 MAX_ATTEMPTS

/-- InputBitStimuli: the stimulus pair for one input bit and its
destination areas. -/
structure InputBitStimuli where
  stimulusFor0 : String
  stimulusFor1 : String
  targetAreas : List String
  deriving Repr, DecidableEq, Inhabited

/-- InputBitStimuli.__getitem__ for the bit values 0 and 1 (other
indices raise IndexError and are never produced by the callers). -/
def bitStimulus (b : InputBitStimuli) (v : Nat) : String :=
  if v = 0 then b.stimulusFor0 else b.stimulusFor1

/-- InputStimuli._validate_area_names_item: every named area must be a
plain area of the brain (first offender reported). -/
def validateAreaList (brain : Brain) : List String → Except LearningError Unit
  | [] => .ok ()
  | n :: rest =>
    if n ∈ brain.areas then validateAreaList brain rest
    else .error (.missingArea n)

def validateAreaNamesItem (brain : Brain) : AreaSpec → Except LearningError Unit
  | .single n => if n ∈ brain.areas then .ok () else .error (.missingArea n)
  | .multi l => validateAreaList brain l

/-- InputStimuli._validate_override_input_bit: both stimuli of the
override pair must be registered (the tuple-shape checks are type-level
here). -/
def validateOverrideInputBit (brain : Brain) (pair : String × String) :
    Except LearningError Unit :=
  if pair.1 ∉ brain.stimuli then .error (.missingStimulus pair.1)
  else if pair.2 ∉ brain.stimuli then .error (.missingStimulus pair.2)
  else .ok ()

/-- Python list(area_names_item): a list specification stays itself, a
single string is split into its characters. -/
def specToList : AreaSpec → List String
  | .single n => n.data.map fun c => String.mk [c]
  | .multi l => l

/-- InputStimuli._generate_input_bits, threading the brain whose
stimulus registry grows with each add_stimulus call (stimulus_k is not
tracked by the registry embedding). -/
def generateInputBitsGo (override : List (Nat × (String × String))) :
    Brain → Nat → List AreaSpec →
      Except LearningError (List InputBitStimuli × Brain)
  | brain, _, [] => .ok ([], brain)
  | brain, bit, spec :: rest => do
    validateAreaNamesItem brain spec
    match (override.find? fun p => decide (p.1 = bit)).map Prod.snd with
    | some pair => do
      validateOverrideInputBit brain pair
      let (bits, brain') ← generateInputBitsGo override brain (bit + 1) rest
      .ok (⟨pair.1, pair.2, specToList spec⟩ :: bits, brain')
    | none => do
      let s0 ← getAvailableStimulusName brain.stimuli spec 0
      let s1 ← getAvailableStimulusName brain.stimuli spec 1
      let brain := { brain with stimuli := brain.stimuli ++ [s0, s1] }
      let (bits, brain') ← generateInputBitsGo override brain (bit + 1) rest
      .ok (⟨s0, s1, specToList spec⟩ :: bits, brain')

def generateInputBits (brain : Brain) (specs : List AreaSpec)
    (override : List (Nat × (String × String))) :
    Except LearningError (List InputBitStimuli × Brain) :=
  generateInputBitsGo override brain 0 specs

lemma nameLoop_ok_spec (stimuli : List String) (areaName : String) (v : Nat) :
    ∀ fuel attempt name, 1 ≤ attempt → attempt ≤ MAX_ATTEMPTS →
      nameLoop stimuli areaName v attempt fuel = .ok name →
      name ∉ stimuli ∧ ∃ a, attempt ≤ a ∧ a ≤ MAX_ATTEMPTS ∧
        name = formatStimulusName areaName v a ∧
        ∀ b, attempt ≤ b → b < a → formatStimulusName areaName v b ∈ stimuli := by
  intro fuel
  induction fuel with
  | zero =>
    intro attempt name h1 hle h
    rw [nameLoop] at h
    split at h
    · split at h
      · cases h
      · cases h
    · cases h
      refine ⟨by assumption, attempt, le_rfl, hle, rfl, ?_⟩
      intro b hb1 hb2
      omega
  | succ fuel ih =>
    intro attempt name h1 hle h
    rw [nameLoop] at h
    split at h
    · rename_i hmem
      split at h
      · cases h
      · rename_i hne
        obtain ⟨hnotin, a, ha1, ha2, ha3, ha4⟩ :=
          ih (attempt + 1) name (by omega) (by omega) h
        refine ⟨hnotin, a, by omega, ha2, ha3, ?_⟩
        intro b hb1 hb2
        rcases Nat.eq_or_lt_of_le hb1 with rfl | hb
        · exact hmem
        · exact ha4 b (by omega) hb2
    · cases h
      refine ⟨by assumption, attempt, le_rfl, hle, rfl, ?_⟩
      intro b hb1 hb2
      omega

lemma nameLoop_all_collide (stimuli : List String) (areaName : String) (v : Nat) :
    ∀ fuel attempt, 1 ≤ attempt → attempt ≤ MAX_ATTEMPTS →
      MAX_ATTEMPTS ≤ attempt + fuel →
      (∀ a, attempt ≤ a → a ≤ MAX_ATTEMPTS →
        formatStimulusName areaName v a ∈ stimuli) →
      nameLoop stimuli areaName v attempt fuel
        = .error .maxAttemptsToGenerateStimuliReached := by
  intro fuel
  induction fuel with
  | zero =>
    intro attempt h1 hle hfill hall
    have hei : attempt = MAX_ATTEMPTS := by omega
    rw [nameLoop, if_pos (hall attempt le_rfl hle), if_pos hei]
  | succ fuel ih =>
    intro attempt h1 hle hfill hall
    rw [nameLoop, if_pos (hall attempt le_rfl hle)]
    by_cases hei : attempt = MAX_ATTEMPTS
    · rw [if_pos hei]
    · rw [if_neg hei]
      exact ih (attempt + 1) (by omega) (by omega) (by omega)
        fun a ha1 ha2 => hall a (by omega) ha2

/-- Claim C6: when no override is supplied, stimulus-name generation
returns a name free in the brain, of the declared suffixed form, found
after every earlier attempt collided; it tries at most MAX_ATTEMPTS =
100 attempts, failing with MaxAttemptsToGenerateStimuliReached when all
100 candidate names collide; and InputStimuli over areas ['A','A']
generates four distinct stimulus names, none shared between the two
positions. -/
theorem c6_stimulus_name_generation :
    (∀ (stimuli : List String) (spec : AreaSpec) (v : Nat) (name : String),
      getAvailableStimulusName stimuli spec v = .ok name →
      name ∉ stimuli ∧ ∃ a, 1 ≤ a ∧ a ≤ MAX_ATTEMPTS ∧
        name = formatStimulusName (joinedAreaName spec) v a ∧
        ∀ b, 1 ≤ b → b < a →
          formatStimulusName (joinedAreaName spec) v b ∈ stimuli) ∧
    (∀ (stimuli : List String) (spec : AreaSpec) (v : Nat),
      (∀ a, 1 ≤ a → a ≤ MAX_ATTEMPTS →
        formatStimulusName (joinedAreaName spec) v a ∈ stimuli) →
      getAvailableStimulusName stimuli spec v
        = .error .maxAttemptsToGenerateStimuliReached) ∧
    (generateInputBits ⟨["A"], [], []⟩ [.single "A", .single "A"] []
        = .ok ([⟨"__s_A_0", "__s_A_1", ["A"]⟩,
                ⟨"__s_A_0_(2)", "__s_A_1_(2)", ["A"]⟩],
               ⟨["A"], [],
                ["__s_A_0", "__s_A_1", "__s_A_0_(2)", "__s_A_1_(2)"]⟩) ∧
      (["__s_A_0", "__s_A_1", "__s_A_0_(2)", "__s_A_1_(2)"] : List String).Nodup) := by
  refine ⟨?_, ?_, by decide, by decide⟩
  · intro stimuli spec v name h
    exact nameLoop_ok_spec stimuli (joinedAreaName spec) v MAX_ATTEMPTS 1 name
      le_rfl (by decide) h
  · intro stimuli spec v hall
    exact nameLoop_all_collide stimuli (joinedAreaName spec) v MAX_ATTEMPTS 1
      le_rfl (by decide) (by decide) fun a ha1 ha2 => hall a ha1 ha2

/-- Witness for c6_stimulus_name_generation: a brain already holding
__s_A_0 forces the value-0 name for a single-area spec A onto attempt 2,
and a registry holding all 100 value-0 candidates exhausts the attempt
budget. -/
theorem c6_stimulus_name_generation_witness :
    (getAvailableStimulusName ["__s_A_0"] (.single "A") 0 = .ok "__s_A_0_(2)" ∧
      ("__s_A_0_(2)" ∉ (["__s_A_0"] : List String)) ∧
      (∃ a, 1 ≤ a ∧ a ≤ MAX_ATTEMPTS ∧
        "__s_A_0_(2)" = formatStimulusName (joinedAreaName (.single "A")) 0 a ∧
        ∀ b, 1 ≤ b → b < a →
          formatStimulusName (joinedAreaName (.single "A")) 0 b
            ∈ (["__s_A_0"] : List String))) ∧
    ((∀ a, 1 ≤ a → a ≤ MAX_ATTEMPTS →
        formatStimulusName (joinedAreaName (.single "A")) 0 a
          ∈ ((List.range MAX_ATTEMPTS).map fun i =>
              formatStimulusName "A" 0 (i + 1))) ∧
      getAvailableStimulusName
          ((List.range MAX_ATTEMPTS).map fun i => formatStimulusName "A" 0 (i + 1))
          (.single "A") 0
        = .error .maxAttemptsToGenerateStimuliReached) := by
  have hall : ∀ a, 1 ≤ a → a ≤ MAX_ATTEMPTS →
      formatStimulusName (joinedAreaName (.single "A")) 0 a
        ∈ ((List.range MAX_ATTEMPTS).map fun i =>
            formatStimulusName "A" 0 (i + 1)) := by
    intro a h1 h2
    simp only [List.mem_map, List.mem_range]
    exact ⟨a - 1, by revert h1 h2; unfold MAX_ATTEMPTS; omega, by
      show formatStimulusName "A" 0 (a - 1 + 1) = _
      rw [Nat.sub_add_cancel h1]
      rfl⟩
  refine ⟨⟨by decide, ?_, ?_⟩, hall,
    c6_stimulus_name_generation.2.1
      ((List.range MAX_ATTEMPTS).map fun i => formatStimulusName "A" 0 (i + 1))
      (.single "A") 0 hall⟩
  · exact (c6_stimulus_name_generation.1 ["__s_A_0"] (.single "A") 0 "__s_A_0_(2)"
      (by decide)).1
  · exact (c6_stimulus_name_generation.1 ["__s_A_0"] (.single "A") 0 "__s_A_0_(2)"
      (by decide)).2

/-! ## Iteration.format

Two implementations exist in the source:
sequence_components/iteration.py (which unions bit-contributed
destination areas, deduplicated and sorted) and the inline
LearningSequence.Iteration in components/sequence.py (which validates
the bit's target areas and concatenates with +=).  Python dicts are
embedded as insertion-ordered association lists. -/

/-- Big-endian binary digits of a positive number (bin(v)[2:]). -/
def pyBinPos : Nat → List Nat
  | 0 => []
  | 1 => [1]
  | n + 2 => pyBinPos ((n + 2) / 2) ++ [(n + 2) % 2]
decreasing_by omega

/-- bin(v)[2:] for any natural v (bin(0)[2:] is "0"). -/
def pyBin (v : Nat) : List Nat :=
  if v = 0 then [0] else pyBinPos v

/-- str.zfill: left-pad with zeros to the requested width. -/
def zfill (w : Nat) (l : List Nat) : List Nat :=
  List.replicate (w - l.length) 0 ++ l

/-- Iteration._to_bits: tuple(int(bit) for bit in bin(v)[2:].zfill(size)). -/
def toBits (v w : Nat) : List Nat :=
  zfill w (pyBin v)

/-- The number denoted by a big-endian digit list. -/
def bitsToNat (l : List Nat) : Nat :=
  l.foldl (fun acc b => 2 * acc + b) 0

/-- Python string comparison: lexicographic on the code points. -/
def charListLe : List Char → List Char → Bool
  | [], _ => true
  | _ :: _, [] => false
  | a :: as, b :: bs =>
    if a < b then true else if b < a then false else charListLe as bs

def pyStrLe (a b : String) : Bool := charListLe a.data b.data

/-- Python sorted() over strings. -/
def pySorted (l : List String) : List String :=
  List.insertionSort (fun a b => pyStrLe a b = true) l

/-- Iteration._union: sorted(set(list1).union(list2)). -/
def pyUnion (l1 l2 : List String) : List String :=
  pySorted ((l1 ++ l2).dedup)

/-- Dict lookup on an insertion-ordered association list (keys are
unique, as in a Python dict). -/
def lookupA : List (String × List String) → String → Option (List String)
  | [], _ => none
  | p :: t, k => if p.1 = k then some p.2 else lookupA t k

/-- Dict item assignment: update in place when the key exists, append
otherwise (dicts keep insertion order). -/
def updateA : List (String × List String) → String → List String →
    List (String × List String)
  | [], k, v => [(k, v)]
  | p :: t, k, v => if p.1 = k then (k, v) :: t else p :: updateA t k v

/-- The loop body of Iteration.format
(sequence_components/iteration.py): for each declared input-bit entry,
union its areas into the mapping under the bit's active stimulus. -/
def processBits (inputStimuli : List InputBitStimuli) (bits : List Nat) :
    List (Nat × List String) → List (String × List String) →
      List (String × List String)
  | [], m => m
  | (bitIndex, areaNames) :: rest, m =>
    let bitValue := bits.getD bitIndex 0
    let stimulusName := bitStimulus (inputStimuli.getD bitIndex default) bitValue
    processBits inputStimuli bits rest
      (updateA m stimulusName
        (pyUnion areaNames ((lookupA m stimulusName).getD [])))

/-- Iteration.format of sequence_components/iteration.py: the returned
(stim_to_area, area_to_area) projection parameters. -/
def iterationFormat (it : IterationRec) (inputStimuli : List InputBitStimuli)
    (inputValue : Nat) :
    List (String × List String) × List (String × List String) :=
  let bits := toBits inputValue inputStimuli.length
  (processBits inputStimuli bits it.inputBitsToAreas it.stimuliToAreas,
    it.areasToAreas)

/-- The loop body of the inline LearningSequence.Iteration.format
(components/sequence.py): validate the bit's declared areas against the
InputStimuli definition, then concatenate (+=) without deduplication. -/
def processBitsInline (inputStimuli : List InputBitStimuli) (bits : List Nat) :
    List (Nat × List String) → List (String × List String) →
      Except LearningError (List (String × List String))
  | [], m => .ok m
  | (bitIndex, areaNames) :: rest, m =>
    let ib := inputStimuli.getD bitIndex default
    if pySorted ib.targetAreas ≠ pySorted areaNames then
      .error .inputStimuliMisused
    else
      let bitValue := bits.getD bitIndex 0
      let stimulusName := bitStimulus ib bitValue
      processBitsInline inputStimuli bits rest
        (updateA m stimulusName (((lookupA m stimulusName).getD []) ++ areaNames))

/-- LearningSequence.Iteration.format of components/sequence.py. -/
def seqInlineFormat (it : IterationRec) (inputStimuli : List InputBitStimuli)
    (inputValue : Nat) :
    Except LearningError
      (List (String × List String) × List (String × List String)) := do
  let bits := toBits inputValue inputStimuli.length
  let stimToArea ← processBitsInline inputStimuli bits it.inputBitsToAreas
    it.stimuliToAreas
  .ok (stimToArea, it.areasToAreas)

lemma lookupA_updateA_self : ∀ (m : List (String × List String)) k v,
    lookupA (updateA m k v) k = some v := by
  intro m k v
  induction m with
  | nil => simp [updateA, lookupA]
  | cons p t ih =>
    by_cases hp : p.1 = k
    · simp [updateA, lookupA, hp]
    · simp [updateA, lookupA, hp, ih]

lemma lookupA_updateA_ne : ∀ (m : List (String × List String)) k v k', k' ≠ k →
    lookupA (updateA m k v) k' = lookupA m k' := by
  intro m k v k' hne
  induction m with
  | nil => simp [updateA, lookupA, Ne.symm hne]
  | cons p t ih =>
    by_cases hp : p.1 = k
    · simp [updateA, lookupA, hp, Ne.symm hne]
    · by_cases hpk' : p.1 = k'
      · simp [updateA, lookupA, hp, hpk', hne]
      · simp [updateA, lookupA, hp, hpk', ih]

lemma pyUnion_nodup (l1 l2 : List String) : (pyUnion l1 l2).Nodup :=
  (List.perm_insertionSort _ _).symm.nodup (List.nodup_dedup _)

lemma pyUnion_toFinset (l1 l2 : List String) :
    (pyUnion l1 l2).toFinset = l1.toFinset ∪ l2.toFinset := by
  ext a
  simp [pyUnion, pySorted, List.mem_toFinset,
    (List.perm_insertionSort (fun a b => pyStrLe a b = true) ((l1 ++ l2).dedup)).mem_iff,
    List.mem_dedup, List.mem_append]

/-- The stimulus name an input-bit entry activates, given the InputStimuli
definition and the bit values. -/
def chosenStimulus (stim : List InputBitStimuli) (bits : List Nat)
    (e : Nat × List String) : String :=
  bitStimulus (stim.getD e.1 default) (bits.getD e.1 0)

/-- The destination areas contributed to stimulus s by the input-bit
entries that activate s. -/
def contributions (stim : List InputBitStimuli) (bits : List Nat)
    (entries : List (Nat × List String)) (s : String) : Finset String :=
  ((entries.filter fun e => decide (chosenStimulus stim bits e = s)).map
    Prod.snd).foldr (fun l acc => l.toFinset ∪ acc) ∅

lemma contributions_cons_pos {stim bits e s} {rest : List (Nat × List String)}
    (h : chosenStimulus stim bits e = s) :
    contributions stim bits (e :: rest) s
      = e.2.toFinset ∪ contributions stim bits rest s := by
  simp [contributions, List.filter_cons, h]

lemma contributions_cons_neg {stim bits e s} {rest : List (Nat × List String)}
    (h : ¬ chosenStimulus stim bits e = s) :
    contributions stim bits (e :: rest) s = contributions stim bits rest s := by
  simp [contributions, List.filter_cons, h]

lemma contributions_eq_empty {stim bits s} {entries : List (Nat × List String)}
    (h : ∀ e ∈ entries, ¬ chosenStimulus stim bits e = s) :
    contributions stim bits entries s = ∅ := by
  induction entries with
  | nil => rfl
  | cons e rest ih =>
    rw [contributions_cons_neg (h e (List.mem_cons_self e rest))]
    exact ih fun e' he' => h e' (List.mem_cons_of_mem e he')

lemma processBits_lookup_not_mem (stim : List InputBitStimuli) (bits : List Nat) :
    ∀ (entries : List (Nat × List String)) m s,
      (∀ e ∈ entries, ¬ chosenStimulus stim bits e = s) →
      lookupA (processBits stim bits entries m) s = lookupA m s := by
  intro entries
  induction entries with
  | nil => intro m s _; rfl
  | cons e rest ih =>
    intro m s h
    obtain ⟨bi, ar⟩ := e
    rw [processBits, ih _ s fun e' he' => h e' (List.mem_cons_of_mem _ he'),
      lookupA_updateA_ne]
    exact fun hc => h (bi, ar) (List.mem_cons_self _ rest) hc.symm

lemma processBits_lookup_mem (stim : List InputBitStimuli) (bits : List Nat) :
    ∀ (entries : List (Nat × List String)) m s,
      (∃ e ∈ entries, chosenStimulus stim bits e = s) →
      ∃ l, lookupA (processBits stim bits entries m) s = some l ∧ l.Nodup ∧
        l.toFinset = ((lookupA m s).getD []).toFinset
          ∪ contributions stim bits entries s := by
  intro entries
  induction entries with
  | nil => rintro m s ⟨e, he, _⟩; cases he
  | cons e rest ih =>
    intro m s hex
    obtain ⟨bi, ar⟩ := e
    have hstep : processBits stim bits ((bi, ar) :: rest) m
        = processBits stim bits rest
            (updateA m (chosenStimulus stim bits (bi, ar))
              (pyUnion ar
                ((lookupA m (chosenStimulus stim bits (bi, ar))).getD []))) := by
      simp only [processBits, chosenStimulus]
    set t := chosenStimulus stim bits (bi, ar) with hchosen
    set m' := updateA m t (pyUnion ar ((lookupA m t).getD [])) with hm'
    by_cases hrest : ∃ e' ∈ rest, chosenStimulus stim bits e' = s
    · obtain ⟨l, hl, hnd, hset⟩ := ih m' s hrest
      refine ⟨l, by rw [hstep]; exact hl, hnd, ?_⟩
      by_cases hts : t = s
      · have hself : lookupA m' s = some (pyUnion ar ((lookupA m t).getD [])) := by
          rw [hm', ← hts]
          exact lookupA_updateA_self m t _
        rw [hset, hself]
        simp only [Option.getD_some]
        rw [pyUnion_toFinset, contributions_cons_pos (hchosen.symm.trans hts),
          ← hts]
        ext a
        simp only [Finset.mem_union]
        tauto
      · have hne : lookupA m' s = lookupA m s := by
          rw [hm']
          exact lookupA_updateA_ne m t _ s fun h => hts h.symm
        rw [hset, hne, contributions_cons_neg fun h => hts (hchosen.trans h)]
    · have hts : t = s := by
        obtain ⟨e', he', hc⟩ := hex
        rcases List.mem_cons.mp he' with rfl | hmem
        · exact hchosen.trans hc
        · exact absurd ⟨e', hmem, hc⟩ hrest
      push_neg at hrest
      have hnone : lookupA (processBits stim bits rest m') s = lookupA m' s :=
        processBits_lookup_not_mem stim bits rest m' s hrest
      refine ⟨pyUnion ar ((lookupA m t).getD []), ?_, pyUnion_nodup _ _, ?_⟩
      · rw [hstep, hnone, hm', ← hts]
        exact lookupA_updateA_self m t _
      · rw [pyUnion_toFinset, contributions_cons_pos (hchosen.symm.trans hts),
          contributions_eq_empty hrest, ← hts]
        ext a
        simp only [Finset.mem_union, Finset.not_mem_empty]
        tauto

lemma pyBinPos_val : ∀ v, bitsToNat (pyBinPos v) = v := by
  intro v
  induction v using Nat.strong_induction_on with
  | _ v ih =>
    match v with
    | 0 => simp [pyBinPos, bitsToNat]
    | 1 => simp [pyBinPos, bitsToNat]
    | n + 2 =>
      rw [pyBinPos]
      show List.foldl _ 0 (pyBinPos ((n + 2) / 2) ++ [(n + 2) % 2]) = n + 2
      rw [List.foldl_append]
      have hv := ih ((n + 2) / 2) (by omega)
      rw [show List.foldl (fun acc b => 2 * acc + b) 0 (pyBinPos ((n + 2) / 2))
          = bitsToNat (pyBinPos ((n + 2) / 2)) from rfl, hv]
      simp only [List.foldl_cons, List.foldl_nil]
      omega

lemma pyBinPos_length_le : ∀ w v, v < 2 ^ w → (pyBinPos v).length ≤ w := by
  intro w
  induction w with
  | zero =>
    intro v hv
    have : v = 0 := by simpa using hv
    subst this
    simp [pyBinPos]
  | succ w ih =>
    intro v hv
    match v with
    | 0 => simp [pyBinPos]
    | 1 => simp [pyBinPos]
    | n + 2 =>
      rw [pyBinPos, List.length_append]
      have hhalf : (n + 2) / 2 < 2 ^ w := by
        have hp : 2 ^ (w + 1) = 2 * 2 ^ w := by ring
        omega
      have := ih ((n + 2) / 2) hhalf
      simp only [List.length_cons, List.length_nil]
      omega

lemma bitsToNat_replicate_zero : ∀ k, bitsToNat (List.replicate k 0) = 0 := by
  intro k
  induction k with
  | zero => rfl
  | succ n ih =>
    rw [List.replicate_succ]
    show List.foldl (fun acc b => 2 * acc + b) (2 * 0 + 0) (List.replicate n 0) = 0
    exact ih

lemma bitsToNat_zfill (w : Nat) (l : List Nat) :
    bitsToNat (zfill w l) = bitsToNat l := by
  rw [zfill]
  show List.foldl _ 0 (List.replicate (w - l.length) 0 ++ l) = bitsToNat l
  rw [List.foldl_append]
  rw [show List.foldl (fun acc b => 2 * acc + b) 0 (List.replicate (w - l.length) 0)
      = bitsToNat (List.replicate (w - l.length) 0) from rfl,
    bitsToNat_replicate_zero]
  rfl

lemma toBits_length {v w : Nat} (hv : v < 2 ^ w) (hw : 0 < w) :
    (toBits v w).length = w := by
  rw [toBits, zfill, List.length_append, List.length_replicate]
  have hlen : (pyBin v).length ≤ w := by
    rw [pyBin]
    split
    · simpa using hw
    · exact pyBinPos_length_le w v hv
  omega

lemma toBits_val (v w : Nat) : bitsToNat (toBits v w) = v := by
  rw [toBits, bitsToNat_zfill, pyBin]
  split
  · simp only [bitsToNat, List.foldl_cons, List.foldl_nil]
    omega
  · exact pyBinPos_val v

lemma pyBinPos_bits_le : ∀ v, ∀ b ∈ pyBinPos v, b ≤ 1 := by
  intro v
  induction v using Nat.strong_induction_on with
  | _ v ih =>
    match v with
    | 0 => simp [pyBinPos]
    | 1 => simp [pyBinPos]
    | n + 2 =>
      rw [pyBinPos]
      intro b hb
      rcases List.mem_append.mp hb with hb | hb
      · exact ih ((n + 2) / 2) (by omega) b hb
      · simp only [List.mem_singleton] at hb
        omega

lemma toBits_bits_le (v w : Nat) : ∀ b ∈ toBits v w, b ≤ 1 := by
  intro b hb
  rw [toBits, zfill] at hb
  rcases List.mem_append.mp hb with hb | hb
  · simp only [List.mem_replicate] at hb
    omega
  · rw [pyBin] at hb
    split at hb
    · simp only [List.mem_singleton] at hb
      omega
    · exact pyBinPos_bits_le v b hb

/-- The stimuli activated by the input bits of an iteration for a given
input value. -/
def activatedStimuli (it : IterationRec) (inputStimuli : List InputBitStimuli)
    (inputValue : Nat) : List String :=
  it.inputBitsToAreas.map (chosenStimulus inputStimuli
    (toBits inputValue inputStimuli.length))

/-- Claim C5, counterexample: the inline
LearningSequence.Iteration.format of components/sequence.py concatenates
with +=, so a stimulus both declared directly (to area A) and activated
by an input bit (to area A) is mapped to ['A','A'] — a multiset, not the
deduplicated union ['A']. -/
theorem c5_inline_format_counterexample :
    seqInlineFormat ⟨[("s", ["A"])], [(0, ["A"])], [], 1⟩ [⟨"s", "s", ["A"]⟩] 0
        = .ok ([("s", ["A", "A"])], []) ∧
      ¬ (["A", "A"] : List String).Nodup := by
  decide

/-- Claim C5 (amended): Iteration.format of
sequence_components/iteration.py decomposes the input value as a
fixed-width big-endian bit string of width = number of input bits and
maps each stimulus activated by some input bit to exactly the
deduplicated union of its declared destination areas (across its
declared stimulus entry and all bits that activate it); the inline
LearningSequence.Iteration.format of components/sequence.py instead
concatenates bit contributions without deduplication. -/
theorem c5_format_maps_union (it : IterationRec)
    (inputStimuli : List InputBitStimuli) (v : Nat)
    (hv : v < 2 ^ inputStimuli.length) (hw : 0 < inputStimuli.length) :
    (toBits v inputStimuli.length).length = inputStimuli.length ∧
    bitsToNat (toBits v inputStimuli.length) = v ∧
    (∀ b ∈ toBits v inputStimuli.length, b ≤ 1) ∧
    ∀ s ∈ activatedStimuli it inputStimuli v,
      ∃ l, lookupA (iterationFormat it inputStimuli v).1 s = some l ∧
        l.Nodup ∧
        l.toFinset = ((lookupA it.stimuliToAreas s).getD []).toFinset
          ∪ contributions inputStimuli (toBits v inputStimuli.length)
              it.inputBitsToAreas s := by
  refine ⟨toBits_length hv hw, toBits_val v _, toBits_bits_le v _, ?_⟩
  intro s hs
  simp only [activatedStimuli, List.mem_map] at hs
  obtain ⟨e, he, hc⟩ := hs
  exact processBits_lookup_mem inputStimuli (toBits v inputStimuli.length)
    it.inputBitsToAreas it.stimuliToAreas s ⟨e, he, hc⟩

/-- Witness for c5_format_maps_union: one declared stimulus entry
(s to A) plus one input bit activating s toward A and B; the result maps
s to the deduplicated union [A, B]. -/
theorem c5_format_maps_union_witness :
    (0 : Nat) < 1 ∧ (0 : Nat) < 2 ^ 1 ∧
      "s" ∈ activatedStimuli ⟨[("s", ["A"])], [(0, ["A", "B"])], [], 1⟩
        [⟨"s", "s", ["A", "B"]⟩] 0 ∧
      ∃ l, lookupA (iterationFormat ⟨[("s", ["A"])], [(0, ["A", "B"])], [], 1⟩
            [⟨"s", "s", ["A", "B"]⟩] 0).1 "s" = some l ∧
        l.Nodup ∧
        l.toFinset = ((lookupA ([("s", ["A"])]) "s").getD []).toFinset
          ∪ contributions [⟨"s", "s", ["A", "B"]⟩] (toBits 0 1) [(0, ["A", "B"])]
              "s" :=
  ⟨by decide, by decide, by decide,
    (c5_format_maps_union ⟨[("s", ["A"])], [(0, ["A", "B"])], [], 1⟩
      [⟨"s", "s", ["A", "B"]⟩] 0 (by decide) (by decide)).2.2.2 "s" (by decide)⟩

/-! ## LearningModel (src/learning/learning_model.py)

The substrate's single global mode, the model lifecycle (terminate /
output_area) and the test loop.  Python exceptions that propagate while
mutable state survives are embedded as PyResult, which carries the state
at the moment of raising. -/

inductive BrainMode
  | DEFAULT
  | TRAINING
  | TESTING
  deriving Repr, DecidableEq

/-- The outcome of running a Python block against mutable state: normal
completion, or an exception propagating while the state keeps its
current values. -/
inductive PyResult (ε σ : Type)
  | ok (state : σ)
  | raised (exc : ε) (state : σ)
  deriving Repr, DecidableEq

/-- The substrate state seen by _set_training_mode: its single global
mode attribute. -/
structure ModeState where
  mode : BrainMode
  deriving Repr, DecidableEq

/-- LearningModel._set_training_mode (learning_model.py lines 213-220,
same shape as model.py's _set_brain_mode): a @contextmanager whose
generator sets the mode, yields, and restores afterwards — with no
try/finally, so when the wrapped body raises, the exception is thrown
into the generator at the yield point and the restore line after the
yield never runs. -/
def withSetTrainingMode (ε : Type) (brainMode : BrainMode)
    (body : ModeState → PyResult ε ModeState) (b : ModeState) :
    PyResult ε ModeState :=
  let originalMode := b.mode
  match body { b with mode := brainMode } with
  | .ok b2 => .ok { b2 with mode := originalMode }
  | .raised e b2 => .raised e b2

/-- Claim C3, code bug: when the wrapped substrate call raises, the mode
is left at the newly-set value instead of being restored — restoring
happens only on the normal exit path.  Here the brain starts in DEFAULT
mode, _set_training_mode(TRAINING) wraps a body that raises without
touching the mode, and the exception propagates with the mode still
TRAINING. -/
theorem c3_mode_not_restored_on_exception :
    withSetTrainingMode Unit BrainMode.TRAINING
        (fun b => .raised () b) ⟨BrainMode.DEFAULT⟩
      = .raised () ⟨BrainMode.TRAINING⟩ ∧
    BrainMode.TRAINING ≠ BrainMode.DEFAULT ∧
    withSetTrainingMode Unit BrainMode.TRAINING
        (fun b => .ok b) ⟨BrainMode.DEFAULT⟩
      = .ok ⟨BrainMode.DEFAULT⟩ := by
  refine ⟨rfl, by decide, rfl⟩

/-- The model-relevant state: the substrate's output-collection registry
plus the model's private attributes. -/
structure ModelState where
  brainOutputAreas : List String
  outputArea : Option String
  inactivated : Bool
  deriving Repr, DecidableEq

/-- brain.remove_output_area: drop the named collection from the
registry. -/
def removeOutputArea (areas : List String) (name : String) : List String :=
  areas.filter fun a => decide (a ≠ name)

/-- LearningModel.terminate (learning_model.py lines 35-44). -/
def ModelState.terminate (st : ModelState) : ModelState :=
  if st.inactivated then st
  else
    { st with
      brainOutputAreas :=
        match st.outputArea with
        | some n => removeOutputArea st.brainOutputAreas n
        | none => st.brainOutputAreas,
      inactivated := true }

/-- LearningModel.output_area (learning_model.py lines 46-60): fail when
inactivated; lazily create the uniquely-named collection, removing a
stale collection of the same name first. -/
def outputAreaProp (modelId : String) (st : ModelState) :
    Except LearningError (String × ModelState) :=
  if st.inactivated then .error .modelInactivated
  else
    match st.outputArea with
    | some n => .ok (n, st)
    | none =>
      let name := "Output_" ++ modelId
      let areas :=
        if name ∈ st.brainOutputAreas then
          removeOutputArea st.brainOutputAreas name
        else st.brainOutputAreas
      .ok (name,
        { st with
            brainOutputAreas := areas ++ [name]
            outputArea := some name })

/-- The leading inactivation guards of train_model (line 67),
test_model (line 85) and run_model (line 111): each method first raises
ModelInactivated, and only otherwise runs its body (abstracted as a
continuation). -/
def trainModelGuarded (α : Type) (st : ModelState)
    (rest : ModelState → Except LearningError α) : Except LearningError α :=
  if st.inactivated then .error .modelInactivated else rest st

def testModelGuarded (α : Type) (st : ModelState)
    (rest : ModelState → Except LearningError α) : Except LearningError α :=
  if st.inactivated then .error .modelInactivated else rest st

def runModelGuarded (α : Type) (st : ModelState)
    (rest : ModelState → Except LearningError α) : Except LearningError α :=
  if st.inactivated then .error .modelInactivated else rest st

/-- Claim C9: terminate removes the lazily-created private output
collection from the substrate, is idempotent, and afterwards
output_area access, train_model, test_model and run_model all fail with
ModelInactivated. -/
theorem c9_terminate_lifecycle (st : ModelState) :
    (st.terminate).terminate = st.terminate ∧
    (st.terminate).inactivated = true ∧
    (st.inactivated = false → ∀ n, st.outputArea = some n →
      n ∉ (st.terminate).brainOutputAreas) ∧
    (∀ (α : Type) (rest : ModelState → Except LearningError α),
      trainModelGuarded α st.terminate rest = .error .modelInactivated) ∧
    (∀ (α : Type) (rest : ModelState → Except LearningError α),
      testModelGuarded α st.terminate rest = .error .modelInactivated) ∧
    (∀ (α : Type) (rest : ModelState → Except LearningError α),
      runModelGuarded α st.terminate rest = .error .modelInactivated) ∧
    (∀ modelId, outputAreaProp modelId st.terminate
      = .error .modelInactivated) := by
  have hterm : ∀ st' : ModelState, st'.inactivated = true → st'.terminate = st' := by
    intro st' h
    unfold ModelState.terminate
    rw [if_pos h]
  have hinact : (st.terminate).inactivated = true := by
    unfold ModelState.terminate
    split
    · simp_all
    · rfl
  refine ⟨hterm st.terminate hinact, hinact, ?_, ?_, ?_, ?_, ?_⟩
  · intro hact n hn
    unfold ModelState.terminate
    rw [if_neg (by simp [hact])]
    simp only [hn, removeOutputArea, List.mem_filter]
    rintro ⟨-, hfalse⟩
    simp at hfalse
  · intro α rest
    simp [trainModelGuarded, hinact]
  · intro α rest
    simp [testModelGuarded, hinact]
  · intro α rest
    simp [runModelGuarded, hinact]
  · intro modelId
    simp [outputAreaProp, hinact]

/-- An active model whose private output collection has been created. -/
def c9ExampleModel : ModelState :=
  { brainOutputAreas := ["Output_1"], outputArea := some "Output_1",
    inactivated := false }

/-- Witness for c9_terminate_lifecycle at a concrete active model whose
output collection has been created. -/
theorem c9_terminate_lifecycle_witness :
    (c9ExampleModel.inactivated = false ∧
      c9ExampleModel.outputArea = some "Output_1") ∧
    "Output_1" ∉ c9ExampleModel.terminate.brainOutputAreas ∧
    trainModelGuarded Nat c9ExampleModel.terminate (fun _ => .ok 0)
      = .error .modelInactivated :=
  ⟨⟨rfl, rfl⟩,
    (c9_terminate_lifecycle c9ExampleModel).2.2.1 rfl "Output_1" rfl,
    (c9_terminate_lifecycle c9ExampleModel).2.2.2.1 Nat (fun _ => .ok 0)⟩

/-- Python true division between the two list lengths: raises
ZeroDivisionError on a zero denominator. -/
def pyDiv (a b : Nat) : Except LearningError Rat :=
  if b = 0 then .error .zeroDivisionError else .ok ((a : Rat) / (b : Rat))

/-- Python round(x, 2) on an exact rational (half-to-even). -/
def pyRound2 (x : Rat) : Rat :=
  let y := 100 * x
  let f : Int := ⌊y⌋
  let r := y - (f : Rat)
  let n : Int :=
    if r < 1 / 2 then f
    else if 1 / 2 < r then f + 1
    else if f % 2 = 0 then f else f + 1
  (n : Rat) / 100

/-- The classification loop of test_model: inputs predicted correctly go
to true_positive, the rest to false_negative, in test-set order. -/
def classify (runModel : Nat → Nat) :
    List (Nat × Nat) → List Nat × List Nat
  | [] => ([], [])
  | (i, out) :: rest =>
    let (tp, fn) := classify runModel rest
    if runModel i = out then (i :: tp, fn) else (tp, i :: fn)

/-- LearningModel.test_model (learning_model.py lines 78-102), with the
substrate's prediction run_model abstracted as a function. -/
def testModel (domainSize testSetDomainSize : Nat) (inactivated : Bool)
    (runModel : Nat → Nat) (points : List (Nat × Nat)) :
    Except LearningError (Rat × List Nat × List Nat) :=
  if inactivated then .error .modelInactivated
  else if testSetDomainSize ≠ domainSize then .error .domainSizeMismatch
  else
    let c := classify runModel points
    match pyDiv c.1.length (c.1.length + c.2.length) with
    | .error e => .error e
    | .ok accuracy => .ok (pyRound2 accuracy, c.1, c.2)

lemma classify_length (runModel : Nat → Nat) :
    ∀ points : List (Nat × Nat),
      (classify runModel points).1.length + (classify runModel points).2.length
        = points.length := by
  intro points
  induction points with
  | nil => rfl
  | cons p rest ih =>
    obtain ⟨i, out⟩ := p
    simp only [classify]
    split <;> simp_all <;> omega

/-- Claim C10: for an active model with matching domain size, test_model
raises an uncaught ZeroDivisionError exactly when the test set yields
zero data points: the accuracy denominator is the unguarded sum of the
two classification lists, whose lengths always sum to the number of data
points. -/
theorem c10_empty_test_set_division_by_zero (domainSize : Nat)
    (runModel : Nat → Nat) :
    testModel domainSize domainSize false runModel [] = .error .zeroDivisionError ∧
    ∀ points, testModel domainSize domainSize false runModel points
        = .error .zeroDivisionError ↔ points = [] := by
  have hgen : ∀ points : List (Nat × Nat),
      testModel domainSize domainSize false runModel points
        = .error .zeroDivisionError ↔ points = [] := by
    intro points
    have hlen := classify_length runModel points
    simp only [testModel]
    rw [if_neg (by simp), if_neg (by simp)]
    constructor
    · intro h
      rcases hp : points with _ | ⟨q, t⟩
      · rfl
      · exfalso
        rw [hp] at hlen h
        have hdenom : (classify runModel (q :: t)).1.length
            + (classify runModel (q :: t)).2.length ≠ 0 := by
          rw [hlen]
          simp
        unfold pyDiv at h
        rw [if_neg hdenom] at h
        split at h
        · simp_all
        · cases h
    · rintro rfl
      rfl
  exact ⟨(hgen []).mpr rfl, hgen⟩

/-! ## TestingSet and explicit Mask

Modelled from the spec: the Mask and TestingSet implementations (the
learning.data_set constructors create_explicit_mask and
create_testing_set_from_callable used by the tests) are missing from the
source snapshot; only learning/data_set/lib/training_set.py and the
abstract base are present.  Per spec §4.4, the explicit mask reports
in_training_set(i) iff flag[i] is truthy and in_testing_set(i) iff
flag[i] is falsy, and the TestingSet produces every testing-qualifying
index exactly once, in ascending order, with the labeling function's
exact (non-noisy) output. -/

/-- Modelled from the spec: explicit mask membership in the testing set
(flag falsy, flags being 0/1 integers in the tests). -/
def inTestingSet (flags : List Nat) (i : Nat) : Bool :=
  decide (flags.getD i 1 = 0)

/-- Modelled from the spec: the full (input, output) trace of a
TestingSet built from a labeling function, a domain size and an explicit
mask. -/
def testingSetList (f : Nat → Nat) (domainSize : Nat) (flags : List Nat) :
    List (Nat × Nat) :=
  ((List.range (2 ^ domainSize)).filter fun i => inTestingSet flags i).map
    fun i => (i, f i)

/-- Claim C7, counterexample: with the explicit mask [0,0,1,1,0,1,1,1]
and f(x) = x % 2, the TestingSet yields the falsy-flag indices
[0, 1, 4] — not [2, 3, 5, 6, 7] as the claim states (the cited test
asserts 2, 3, 5, 6, 7 never appear). -/
theorem c7_testing_set_counterexample :
    testingSetList (fun x => x % 2) 3 [0, 0, 1, 1, 0, 1, 1, 1]
        = [(0, 0), (1, 1), (4, 0)] ∧
      ¬ ((testingSetList (fun x => x % 2) 3 [0, 0, 1, 1, 0, 1, 1, 1]).map
          Prod.fst = [2, 3, 5, 6, 7]) := by
  decide

/-- Claim C7 (amended): for the explicit mask [0,0,1,1,0,1,1,1]
(0-indexed) and labeling function f(x) = x % 2, the TestingSet yields
exactly the inputs [0, 1, 4] with outputs [0, 1, 0], in that order, and
indices 2, 3, 5, 6 and 7 never appear. -/
theorem c7_testing_set_trace :
    testingSetList (fun x => x % 2) 3 [0, 0, 1, 1, 0, 1, 1, 1]
        = [(0, 0), (1, 1), (4, 0)] ∧
      (([2, 3, 5, 6, 7] : List Nat).all fun i =>
        i ∉ (testingSetList (fun x => x % 2) 3 [0, 0, 1, 1, 0, 1, 1, 1]).map
          Prod.fst) := by
  decide

end Assemblies
